import Mathlib

/-!
# Verification of the `ircv3_tags` message-tags parser

Shallow embedding of the crate `ircv3_tags` (default feature set: both
`HYPHEN` constants are `"-"`).  Rust `&str` values are modelled as
`List Char`; a nom parser `Fn(&str) -> IResult<&str, O, E>` becomes a Lean
function `List Char → Except E (List Char × O)` (remainder, output).

All failures produced by this crate are `nom::Err::Error` (no `Failure`,
no `Incomplete`: every combinator used is from the `complete` family and
`cut` is never used), so a single `Except` error channel is a faithful
model and the backtracking combinators (`opt`, `alt`, the list repeaters)
simply catch the error.
-/

set_option maxRecDepth 20000

deriving instance DecidableEq for Except

namespace IRCv3

/-- The `nom::error::ErrorKind` codes that the embedded parsers emit. -/
inductive NomCode where
  | char
  | alpha
  | alphaNumeric
  | oneOf
  | space
  | separatedList
  deriving DecidableEq, Repr

/-- `src/error.rs`, `enum ErrorKind`: semantic error kinds. -/
inductive ErrKind where
  | hostErrorStartWithLetter
  | hostErrorEndsWithLetterOrDigit
  | hostErrorNoConsecutiveHyphens
  | hostErrorInvalidLabel
  | tagErrorStartWithLetter
  | empty
  | nomError
  deriving DecidableEq, Repr

/-- `src/error.rs`, `struct HostError<I>` with `I = &str`. -/
structure HostError where
  input : List Char
  code : NomCode
  error : ErrKind
  reason : String
  deriving DecidableEq, Repr

/-- `src/error.rs`, `struct IRCv3TagsError<I>` with `I = &str`.
Structurally identical to `HostError` but kept distinct, as in the source. -/
structure IRCv3TagsError where
  input : List Char
  code : NomCode
  error : ErrKind
  reason : String
  deriving DecidableEq, Repr

/-- `nom::error::Error<&str>`: the generic (tolerant-API) error, holding
only the failing input slice and the nom error code. -/
structure NomError where
  input : List Char
  code : NomCode
  deriving DecidableEq, Repr

/-- `nom::IResult<&str, O, E>`: either an error or (remainder, output). -/
abbrev Pres (E α : Type) := Except E (List Char × α)

/-- `<IRCv3TagsError as ParseError>::from_error_kind` (src/error.rs). -/
def fromErrorKindTags (input : List Char) (code : NomCode) : IRCv3TagsError :=
  ⟨input, code, .nomError, "failed to parse IRCv3 message tags"⟩

/-- `<HostError as ParseError>::from_error_kind` (src/error.rs). -/
def fromErrorKindHost (input : List Char) (code : NomCode) : HostError :=
  ⟨input, code, .nomError, "characters only letters, digits, and hyphen"⟩

/-- `nom::error::Error::new`. -/
def fromErrorKindNom (input : List Char) (code : NomCode) : NomError :=
  ⟨input, code⟩

/-! ## nom combinators (the ones this crate instantiates)

Each combinator is parameterised by the target error type's
`from_error_kind` function `mk`. -/

/-- `nom::character::complete::char(c)`. -/
def charP {E : Type} (mk : List Char → NomCode → E) (c : Char)
    (input : List Char) : Pres E Char :=
  match input with
  | x :: rest => if x = c then .ok (rest, x) else .error (mk input .char)
  | [] => .error (mk input .char)

/-- `nom::character::complete::one_of(cs)`. -/
def oneOfP {E : Type} (mk : List Char → NomCode → E) (cs : List Char)
    (input : List Char) : Pres E Char :=
  match input with
  | x :: rest => if cs.contains x then .ok (rest, x) else .error (mk input .oneOf)
  | [] => .error (mk input .oneOf)

/-- `nom::character::complete::alpha1`: one or more ASCII letters. -/
def alpha1P {E : Type} (mk : List Char → NomCode → E)
    (input : List Char) : Pres E (List Char) :=
  if (input.takeWhile Char.isAlpha).isEmpty then .error (mk input .alpha)
  else .ok (input.drop (input.takeWhile Char.isAlpha).length,
    input.takeWhile Char.isAlpha)

/-- `nom::character::complete::alphanumeric1`: one or more ASCII letters/digits. -/
def alphanumeric1P {E : Type} (mk : List Char → NomCode → E)
    (input : List Char) : Pres E (List Char) :=
  if (input.takeWhile Char.isAlphanum).isEmpty then .error (mk input .alphaNumeric)
  else .ok (input.drop (input.takeWhile Char.isAlphanum).length,
    input.takeWhile Char.isAlphanum)

/-- The characters `nom::character::complete::space1` accepts: space and tab. -/
def isSpaceTab (c : Char) : Bool := c = ' ' || c = '\t'

/-- `nom::character::complete::space1`: one or more spaces/tabs. -/
def space1P {E : Type} (mk : List Char → NomCode → E)
    (input : List Char) : Pres E (List Char) :=
  if (input.takeWhile isSpaceTab).isEmpty then .error (mk input .space)
  else .ok (input.drop (input.takeWhile isSpaceTab).length,
    input.takeWhile isSpaceTab)

/-- `nom::bytes::complete::take_till(p)`: longest prefix of characters not
satisfying `p`; never fails. -/
def takeTillP {E : Type} (p : Char → Bool)
    (input : List Char) : Pres E (List Char) :=
  .ok (input.drop (input.takeWhile (fun c => !p c)).length,
    input.takeWhile (fun c => !p c))

/-- `nom::combinator::opt(p)`: never fails; backtracks to the original
input when `p` fails. -/
def optP {E α : Type} (p : List Char → Pres E α)
    (input : List Char) : List Char × Option α :=
  match p input with
  | .ok (r, a) => (r, some a)
  | .error _ => (input, none)

/-- `nom::branch::alt((p, q))` for two alternatives: on failure of `p`
runs `q` on the original input and returns `q`'s error (the default
`ParseError::or` keeps the second error). -/
def altP {E α : Type} (p q : List Char → Pres E α)
    (input : List Char) : Pres E α :=
  match p input with
  | .ok r => .ok r
  | .error _ => q input

/-- `nom::combinator::recognize(p)`: runs `p` and returns the consumed
input slice instead of `p`'s output.  Every parser in this development
returns a remainder that is a suffix of its input, so the consumed slice
is the first `input.length - remainder.length` characters. -/
def recognizeP {E α : Type} (p : List Char → Pres E α)
    (input : List Char) : Pres E (List Char) :=
  match p input with
  | .error e => .error e
  | .ok (r, _) => .ok (r, input.take (input.length - r.length))

/-- `nom::sequence::preceded(p, q)`. -/
def precededP {E α β : Type} (p : List Char → Pres E α) (q : List Char → Pres E β)
    (input : List Char) : Pres E β :=
  match p input with
  | .error e => .error e
  | .ok (r, _) => q r

/-- `nom::sequence::terminated(p, q)`. -/
def terminatedP {E α β : Type} (p : List Char → Pres E α) (q : List Char → Pres E β)
    (input : List Char) : Pres E α :=
  match p input with
  | .error e => .error e
  | .ok (r, a) =>
    match q r with
    | .error e => .error e
    | .ok (r2, _) => .ok (r2, a)

/-- `nom::sequence::delimited(p, q, r)`. -/
def delimitedP {E α β γ : Type} (p : List Char → Pres E α)
    (q : List Char → Pres E β) (r : List Char → Pres E γ)
    (input : List Char) : Pres E β :=
  match p input with
  | .error e => .error e
  | .ok (r1, _) =>
    match q r1 with
    | .error e => .error e
    | .ok (r2, b) =>
      match r r2 with
      | .error e => .error e
      | .ok (r3, _) => .ok (r3, b)

/-- `nom::multi::many0(p)`, fuel-indexed.  Every parser this crate repeats
consumes at least one character on success, so `fuel = input.length`
(supplied by `many0P`) always suffices; nom's infinite-loop guard (error on
a success that consumes nothing) is modelled by stopping, a branch none of
the instantiations can reach. -/
def many0F {E α : Type} (p : List Char → Pres E α)
    (fuel : Nat) (input : List Char) : List Char × List α :=
  match p input with
  | .error _ => (input, [])
  | .ok (rest, a) =>
    match fuel with
    | 0 => (input, [])
    | fuel' + 1 =>
      if rest.length < input.length then
        let r := many0F p fuel' rest
        (r.1, a :: r.2)
      else (input, [])

/-- `nom::multi::many0(p)`. -/
def many0P {E α : Type} (p : List Char → Pres E α)
    (input : List Char) : List Char × List α :=
  many0F p input.length input

/-- `nom::multi::many1(p)`: first application must succeed (its error is
propagated unchanged, since `ParseError::append` returns the inner error),
then behaves as `many0`. -/
def many1P {E α : Type} (p : List Char → Pres E α)
    (input : List Char) : Pres E (List α) :=
  match p input with
  | .error e => .error e
  | .ok (rest, a) =>
    let r := many0P p rest
    .ok (r.1, a :: r.2)

/-- The loop of `nom::multi::separated_list1(sep, p)` after the first
element: try `sep`; on failure stop; then try `p`; on failure stop at the
position *before* the separator; on success continue.  The no-progress
check (`separated_list1` errors when `sep` consumes nothing) is included
for fidelity though `char(';')` always consumes. -/
def sepLoopF {E α β : Type} (mk : List Char → NomCode → E)
    (sep : List Char → Pres E β) (p : List Char → Pres E α)
    (fuel : Nat) (i : List Char) : Pres E (List α) :=
  match sep i with
  | .error _ => .ok (i, [])
  | .ok (i1, _) =>
    if i1 = i then .error (mk i1 .separatedList)
    else
      match p i1 with
      | .error _ => .ok (i, [])
      | .ok (i2, a) =>
        match fuel with
        | 0 => .ok (i, [])
        | fuel' + 1 =>
          match sepLoopF mk sep p fuel' i2 with
          | .error e => .error e
          | .ok (r, rest) => .ok (r, a :: rest)

/-- `nom::multi::separated_list1(sep, p)`. -/
def sepList1P {E α β : Type} (mk : List Char → NomCode → E)
    (sep : List Char → Pres E β) (p : List Char → Pres E α)
    (input : List Char) : Pres E (List α) :=
  match p input with
  | .error e => .error e
  | .ok (i1, a) =>
    match sepLoopF mk sep p i1.length i1 with
    | .error e => .error e
    | .ok (r, rest) => .ok (r, a :: rest)

/-! ## src/error.rs helper constructors -/

/-- `check_starts_ascii_alph`: `input.starts_with(|c| c.is_ascii_alphabetic())`. -/
def check_starts_ascii_alph (input : List Char) : Bool :=
  match input with
  | [] => false
  | c :: _ => c.isAlpha

/-- Literal substring test `input.contains("--")`. -/
def containsDashDash : List Char → Bool
  | '-' :: '-' :: _ => true
  | _ :: rest => containsDashDash rest
  | [] => false

/-- `src/host.rs` `HYPHEN` (default feature set). -/
def hostHYPHEN : List Char := ['-']

/-- `src/lib.rs` `HYPHEN` (default feature set). -/
def tagsHYPHEN : List Char := ['-']

/-- `invalid_empty_label` (src/error.rs). -/
def invalid_empty_label (input : List Char) : HostError :=
  ⟨input, .alpha, .empty, "label must start with the ascii alphabet"⟩

/-- `invalid_start_with_letter` (src/error.rs). -/
def invalid_start_with_letter (input : List Char) : HostError :=
  ⟨input, .alpha, .hostErrorStartWithLetter, "label must start with the ascii alphabet"⟩

/-- `invalid_ends_with` (src/error.rs). -/
def invalid_ends_with (input : List Char) : HostError :=
  ⟨input, .char, .hostErrorEndsWithLetterOrDigit, "end with an ascii alphabet or ascii digit"⟩

/-- `invalid_consecutive_hiphens` (src/error.rs). -/
def invalid_consecutive_hiphens (input : List Char) : HostError :=
  ⟨input, .char, .hostErrorNoConsecutiveHyphens, "cannot contain consecutive hyphens"⟩

/-- `input.ends_with(|e| HYPHEN.contains(e))`: the last character is in the
hyphen set. -/
def endsWithHyphenSet (input : List Char) : Bool :=
  match input.getLast? with
  | some c => hostHYPHEN.contains c
  | none => false

/-- `invalid_label_hyphens` (src/error.rs): rejects a label that ends with
a hyphen-set character or contains the literal `"--"`. -/
def invalid_label_hyphens (input : List Char) : Except HostError Unit :=
  if endsWithHyphenSet input then .error (invalid_ends_with input)
  else if containsDashDash input then .error (invalid_consecutive_hiphens input)
  else .ok ()

/-! ## src/host.rs -/

/-- `label` (src/host.rs): empty check, leading-character check, then
`recognize((alpha1, many0(alt((alphanumeric1, recognize(one_of(HYPHEN)))))))`. -/
def label (input : List Char) : Pres HostError (List Char) :=
  if input.isEmpty then .error (invalid_empty_label input)
  else if !check_starts_ascii_alph input then .error (invalid_start_with_letter input)
  else
    recognizeP (fun i =>
      match alpha1P fromErrorKindHost i with
      | .error e => .error e
      | .ok (r1, _) =>
        let m := many0P (altP (alphanumeric1P fromErrorKindHost)
          (recognizeP (oneOfP fromErrorKindHost hostHYPHEN))) r1
        .ok (m.1, ())) input

/-- `dot` (src/host.rs), with the plain nom error type. -/
def dot (input : List Char) : Pres NomError Char :=
  charP fromErrorKindNom '.' input

/-- The `while let Ok(..) = dot(current_input)` loop of `debug_host`,
fuel-indexed (each iteration consumes at least two characters, so
`fuel = remain.length` always suffices; `dot`'s failure ends the loop and
is discarded). -/
def debugHostLoopF (fuel : Nat) (current : List Char) (pos : Nat) :
    Except HostError (List Char × Nat) :=
  match dot current with
  | .error _ => .ok (current, pos)
  | .ok (r2, _) =>
    match label r2 with
    | .error e => .error e
    | .ok (r2b, l2) =>
      match invalid_label_hyphens l2 with
      | .error e => .error e
      | .ok _ =>
        match fuel with
        | 0 => .ok (current, pos)
        | fuel' + 1 => debugHostLoopF fuel' r2b (pos + l2.length + 1)

/-- `debug_host` (src/host.rs): first label, hyphen check, then if the
remainder starts with `'.'` the dotted loop accumulating a byte-length
counter `position`; the result is `&input[0..position]`. -/
def debug_host (input : List Char) : Pres HostError (List Char) :=
  match label input with
  | .error e => .error e
  | .ok (remain, label_str) =>
    match invalid_label_hyphens label_str with
    | .error e => .error e
    | .ok _ =>
      if remain.head? = some '.' then
        match debugHostLoopF remain.length remain label_str.length with
        | .error e => .error e
        | .ok (current, pos) => .ok (current, input.take pos)
      else .ok (remain, label_str)

/-- `host` (src/host.rs): `debug_host` with its error mapped to
`nom::error::Error::new(e.input, e.code)`. -/
def host (input : List Char) : Pres NomError (List Char) :=
  match debug_host input with
  | .ok r => .ok r
  | .error e => .error ⟨e.input, e.code⟩

/-- Rust `input.split('.')` on a character: always at least one segment;
`"a..b"` gives an empty middle segment, a trailing `'.'` a trailing empty
segment. -/
def splitDot : List Char → List (List Char)
  | [] => [[]]
  | '.' :: rest => [] :: splitDot rest
  | c :: rest =>
    match splitDot rest with
    | s :: ss => (c :: s) :: ss
    | [] => [[c]]

/-- `validate_host` (src/host.rs). -/
def validate_host (input : List Char) : Bool :=
  if input.isEmpty || !check_starts_ascii_alph input
      || input.getLast? = some '-' || containsDashDash input then
    false
  else
    (splitDot input).all (fun segment =>
      match label segment with
      | .error _ => false
      | .ok (remain, _) =>
        remain.isEmpty && check_starts_ascii_alph segment
          && !(segment.getLast? = some '-'))

/-! ## src/lib.rs — tag grammar and collection -/

/-- `IRCv3Tags<'a>` (src/lib.rs): the ordered collection of
(key, optional raw value) pairs produced by a successful parse. -/
structure IRCv3Tags where
  pairs : List (List Char × Option (List Char))
  deriving DecidableEq, Repr

/-- `IRCv3Tags::get` (src/lib.rs): first-match linear scan; an absent
value (`None`) is looked up as the empty string (`unwrap_or("")`). -/
def IRCv3Tags.get (t : IRCv3Tags) (key : List Char) : Option (List Char) :=
  t.pairs.findSome? fun kv => if kv.1 = key then some (kv.2.getD []) else none

/-- `unescaped_to_escaped` (src/lib.rs and src/unescaped_to_escaped.rs,
identical bodies): the single left-to-right unescape pass.  The nested
match mirrors `match chars.next()` after a backslash. -/
def unescaped_to_escaped : List Char → List Char
  | [] => []
  | c :: rest =>
    if c = '\\' then
      match rest with
      | [] => ['\\']
      | d :: rest' =>
        if d = ':' then ';' :: unescaped_to_escaped rest'
        else if d = 's' then ' ' :: unescaped_to_escaped rest'
        else if d = '\\' then '\\' :: unescaped_to_escaped rest'
        else if d = 'r' then '\r' :: unescaped_to_escaped rest'
        else if d = 'n' then '\n' :: unescaped_to_escaped rest'
        else '\\' :: d :: unescaped_to_escaped rest'
    else c :: unescaped_to_escaped rest

/-- `IRCv3Tags::get_escaped` (src/lib.rs). -/
def IRCv3Tags.get_escaped (t : IRCv3Tags) (key : List Char) : Option (List Char) :=
  (t.get key).map unescaped_to_escaped

/-- `IRCv3Tags::to_hashmap` / `into_hashmap` (src/lib.rs): the key/value
pairs fed to `HashMap::collect`, each absent value replaced by the empty
string (`v.unwrap_or("")`).  The hash-map container itself (hashing,
duplicate-key overwrite) is outside the embedding; the substituted pair
sequence is what the claims are about. -/
def IRCv3Tags.to_hashmap (t : IRCv3Tags) : List (List Char × List Char) :=
  t.pairs.map fun kv => (kv.1, kv.2.getD [])

/-- `IRCv3Tags::to_map` / `into_map` (src/lib.rs): owned-string export;
with strings as char lists the substituted pair sequence coincides with
`to_hashmap`'s. -/
def IRCv3Tags.to_map (t : IRCv3Tags) : List (List Char × List Char) :=
  t.pairs.map fun kv => (kv.1, kv.2.getD [])

/-- `IRCv3Tags::to_hashmap_escaped` / `into_hashmap_escaped` /
`to_map_escaped` / `into_map_escaped` (src/lib.rs): as `to_hashmap` but
each (defaulted) value run through `unescaped_to_escaped`. -/
def IRCv3Tags.to_hashmap_escaped (t : IRCv3Tags) : List (List Char × List Char) :=
  t.pairs.map fun kv => (kv.1, unescaped_to_escaped (kv.2.getD []))

/-- `client_prefix` (src/lib.rs): `char('+')`. -/
def client_prefixP (input : List Char) : Pres IRCv3TagsError Char :=
  charP fromErrorKindTags '+' input

/-- `key_name` (src/lib.rs): empty check, start-character check
(`!check_starts_ascii_alph(input) || input.starts_with(HYPHEN)`, the
latter a string-pattern test for the prefix `"-"`), then
`recognize(many1(alt((alphanumeric1, recognize(one_of(HYPHEN))))))`. -/
def key_name (input : List Char) : Pres IRCv3TagsError (List Char) :=
  if input.isEmpty then
    .error ⟨input, .char, .empty, "tag key must start with the ascii alphabet"⟩
  else if !check_starts_ascii_alph input || input.head? = some '-' then
    .error ⟨input, .char, .tagErrorStartWithLetter,
      "tag key must start with the ascii alphabet"⟩
  else
    recognizeP (many1P (altP (alphanumeric1P fromErrorKindTags)
      (recognizeP (oneOfP fromErrorKindTags tagsHYPHEN)))) input

/-- `escaped_value` (src/lib.rs): `take_till` one of NUL, CR, LF, `;`,
space; may match zero characters. -/
def escaped_value (input : List Char) : Pres IRCv3TagsError (List Char) :=
  takeTillP (fun c => c = '\x00' || c = '\r' || c = '\n' || c = ';' || c = ' ') input

/-- `vendor` (src/lib.rs): `debug_host` with its `HostError` fields copied
into an `IRCv3TagsError`. -/
def vendor (input : List Char) : Pres IRCv3TagsError (List Char) :=
  match debug_host input with
  | .ok r => .ok r
  | .error e => .error ⟨e.input, e.code, e.error, e.reason⟩

/-- `key` (src/lib.rs):
`recognize((opt(client_prefix), opt(terminated(vendor, char('/'))), key_name))`
followed by the field-copying `map_err` (an identity on the record). -/
def key (input : List Char) : Pres IRCv3TagsError (List Char) :=
  match
    recognizeP (fun i =>
      let s1 := optP client_prefixP i
      let s2 := optP (terminatedP vendor (charP fromErrorKindTags '/')) s1.1
      match key_name s2.1 with
      | .error e => .error e
      | .ok (r, _) => .ok (r, ())) input
  with
  | .ok r => .ok r
  | .error e => .error ⟨e.input, e.code, e.error, e.reason⟩

/-- `tag` (src/lib.rs): `(key, opt(preceded(char('='), escaped_value)))`. -/
def tag (input : List Char) : Pres IRCv3TagsError (List Char × Option (List Char)) :=
  match key input with
  | .error e => .error e
  | .ok (r1, k) =>
    let s := optP (precededP (charP fromErrorKindTags '=') escaped_value) r1
    .ok (s.1, (k, s.2))

/-- `tags` (src/lib.rs): `separated_list1(char(';'), tag)`. -/
def tags (input : List Char) : Pres IRCv3TagsError (List (List Char × Option (List Char))) :=
  sepList1P fromErrorKindTags (charP fromErrorKindTags ';') tag input

/-- `debug_parse` (src/lib.rs): marker check, then
`delimited(char('@'), tags, space1)` (with the field-copying `map_err`). -/
def debug_parse (input : List Char) : Pres IRCv3TagsError IRCv3Tags :=
  if input.isEmpty || !(input.head? = some '@') then
    .error ⟨input, .char, .tagErrorStartWithLetter, "tag must start with an \x27@\x27"⟩
  else
    match delimitedP (charP fromErrorKindTags '@') tags
        (space1P fromErrorKindTags) input with
    | .error e => .error ⟨e.input, e.code, e.error, e.reason⟩
    | .ok (remain, tgs) => .ok (remain, ⟨tgs⟩)

/-- `try_parse` (src/lib.rs): `debug_parse` with its error mapped to
`nom::error::Error::new(e.input, e.code)`. -/
def try_parse (input : List Char) : Pres NomError IRCv3Tags :=
  match debug_parse input with
  | .ok r => .ok r
  | .error e => .error ⟨e.input, e.code⟩

/-- `parse` (src/lib.rs): `try_parse(input).unwrap()`; the panic on a
malformed line is modelled as `none`. -/
def parse (input : List Char) : Option (List Char × IRCv3Tags) :=
  (try_parse input).toOption

/-- Rust `char::is_alphanumeric` (Unicode).  On ASCII characters it
coincides with ASCII-alphanumeric, and every character this development
evaluates it on is ASCII; the embedding uses the ASCII fragment. -/
def rust_is_alphanumeric (c : Char) : Bool := c.isAlphanum

/-- `validate_key_name` (src/lib.rs): non-empty, must not start or end
with the hyphen prefix string `"-"`, all characters alphanumeric or in
the hyphen set. -/
def validate_key_name (keyStr : List Char) : Bool :=
  if keyStr.isEmpty then false
  else if keyStr.head? = some '-' || keyStr.getLast? = some '-' then false
  else keyStr.all fun c => rust_is_alphanumeric c || tagsHYPHEN.contains c

/-- `validate_vendor` (src/lib.rs): every dot-separated segment must not
start with `'-'`, must not end with `'-'`, and must be non-empty. -/
def validate_vendor (input : List Char) : Bool :=
  (splitDot input).all fun segment =>
    !(segment.head? = some '-') && !(segment.getLast? = some '-')
      && !segment.isEmpty

/-! ## Spec-side definitions

These definitions follow the specification's words (not the source) and
exist to be compared with the source-derived definitions above. -/

/-- Spec-side (tolerant API): the lossy projection of a diagnostic tag
error — drop the semantic kind and reason, keep the generic code and the
failing input slice. -/
def lossy_tags_projection {α : Type} : Pres IRCv3TagsError α → Pres NomError α
  | .ok r => .ok r
  | .error e => .error ⟨e.input, e.code⟩

/-- Spec-side (tolerant API): the lossy projection of a diagnostic host
error. -/
def lossy_host_projection {α : Type} : Pres HostError α → Pres NomError α
  | .ok r => .ok r
  | .error e => .error ⟨e.input, e.code⟩

/-- Spec-side escape table: the five recognized escape sequences of the
unescape transform; an unrecognized second character maps to `none`. -/
def escPairs (d : Char) : Option Char :=
  if d = ':' then some ';'
  else if d = 's' then some ' '
  else if d = '\\' then some '\\'
  else if d = 'r' then some '\r'
  else if d = 'n' then some '\n'
  else none

/-- Spec-side unescape transform, exactly as C3 words it: one
left-to-right pass; a backslash followed by a recognized escape character
emits the replacement, a backslash followed by any other character emits
both unchanged, a lone trailing backslash emits a backslash, and any
non-backslash character is copied unchanged. -/
def unescapeSpec : List Char → List Char
  | [] => []
  | c :: rest =>
    if c = '\\' then
      match rest with
      | [] => ['\\']
      | d :: rest' =>
        match escPairs d with
        | some e => e :: unescapeSpec rest'
        | none => '\\' :: d :: unescapeSpec rest'
    else c :: unescapeSpec rest

/-- Spec-side (C8 wording): whole-string host-grammar validity — input is
non-empty, starts with an ASCII letter, has no invalid construct (no
dot-separated label empty, starting or ending with a hyphen, or containing
consecutive hyphens, and no character outside letters/digits/hyphen/dot),
and is entirely matched by the label/host grammar with no trailing
remainder. -/
def spec_host_valid (input : List Char) : Bool :=
  !input.isEmpty && check_starts_ascii_alph input
    && (splitDot input).all (fun seg =>
        !seg.isEmpty && !(seg.head? = some '-') && !(seg.getLast? = some '-')
          && !containsDashDash seg)
    && input.all (fun c => c.isAlphanum || c = '-' || c = '.')
    && (match debug_host input with
        | .ok (r, _) => r.isEmpty
        | .error _ => false)

/-! ## Claims -/

/-- C1: for the input
`"@id=234AB;+example.com/key=value :nick!user@host PRIVMSG #channel :Hello"`,
parse succeeds and returns the remainder
`":nick!user@host PRIVMSG #channel :Hello"` together with a collection in
which `get("id") = Some("234AB")` and
`get("+example.com/key") = Some("value")`. -/
theorem C1_concrete_scenario :
    ∃ t : IRCv3Tags,
      try_parse
          ("@id=234AB;+example.com/key=value :nick!user@host PRIVMSG #channel :Hello".toList)
        = .ok (":nick!user@host PRIVMSG #channel :Hello".toList, t)
      ∧ t.get "id".toList = some "234AB".toList
      ∧ t.get "+example.com/key".toList = some "value".toList := by
  refine ⟨⟨[("id".toList, some "234AB".toList),
            ("+example.com/key".toList, some "value".toList)]⟩, ?_, ?_, ?_⟩
  · decide
  · decide
  · decide

/-- C2: for every input, `try_parse` is exactly the lossy projection of
`debug_parse` (same success results; on failure only the semantic kind and
reason are dropped, the failing input slice and nom code are kept), and
the same relation holds between `host` and `debug_host`. -/
theorem C2_tolerant_is_lossy_projection :
    ∀ input : List Char,
      try_parse input = lossy_tags_projection (debug_parse input)
      ∧ host input = lossy_host_projection (debug_host input) := by
  intro input
  constructor
  · unfold try_parse lossy_tags_projection
    cases debug_parse input <;> rfl
  · unfold host lossy_host_projection
    cases debug_host input <;> rfl

/-- C4 counterexample: on the 16-character input `a\:b\sc\\d\re\nf` the
unescape transform does not produce the 10-character string the claim
gives (the claimed output drops the literal `e` between CR and LF). -/
theorem C4_counterexample :
    unescaped_to_escaped "a\\:b\\sc\\\\d\\re\\nf".toList
      ≠ "a;b c\\d\r\nf".toList := by decide

/-- C4 (amended): applying the unescape transform to the 16-character
input `a\:b\sc\\d\re\nf` yields the 11-character string
`a;b c\d` CR `e` LF `f`. -/
theorem C4_amended_unescape_value :
    unescaped_to_escaped "a\\:b\\sc\\\\d\\re\\nf".toList
      = "a;b c\\d\re\nf".toList
    ∧ ("a;b c\\d\re\nf".toList).length = 11 := by
  constructor
  · decide
  · decide

/-- C5 counterexample: for `"@k=v  x"` (two spaces after the tag list) the
parse succeeds with remainder `"x"` — the delimiting `space1` consumed
both spaces — whereas the claim predicts a remainder beginning with the
second space. -/
theorem C5_counterexample :
    debug_parse "@k=v  x".toList
      = .ok ("x".toList, ⟨[("k".toList, some "v".toList)]⟩)
    ∧ "x".toList ≠ " x".toList := by
  constructor
  · decide
  · decide

/-- C6 counterexample: for input `"a.b-"` the invalid-construct error of
`debug_host` carries the inner label `"b-"` as its failing input slice,
not the original outer input `"a.b-"` as the claim states. -/
theorem C6_counterexample :
    debug_host "a.b-".toList
      = .error ⟨"b-".toList, .char, .hostErrorEndsWithLetterOrDigit,
          "end with an ascii alphabet or ascii digit"⟩
    ∧ "b-".toList ≠ "a.b-".toList := by
  constructor
  · decide
  · decide

/-- C7: `validate_host` accepts `"example.com"` and rejects
`"example-.com"`, `"-example.com"`, `"example..com"` and
`"exam--ple.com"`. -/
theorem C7_validate_host_examples :
    validate_host "example.com".toList = true
    ∧ validate_host "example-.com".toList = false
    ∧ validate_host "-example.com".toList = false
    ∧ validate_host "example..com".toList = false
    ∧ validate_host "exam--ple.com".toList = false := by
  refine ⟨?_, ?_, ?_, ?_, ?_⟩ <;> decide

/-- C8 counterexample: `validate_vendor` accepts `"1host"`, which is not
valid under the whole-string host grammar (it does not start with an ASCII
letter), so the claimed equivalence fails. -/
theorem C8_counterexample :
    validate_vendor "1host".toList = true
    ∧ spec_host_valid "1host".toList = false := by
  constructor
  · decide
  · decide

/-- C8 (amended): `validate_vendor(input)` returns true iff every
dot-separated segment of the input is non-empty and neither starts nor
ends with a hyphen; it checks nothing else (no letter-start, character
class, or consecutive-hyphen requirement). -/
theorem C8_amended_validate_vendor_iff :
    ∀ input : List Char,
      validate_vendor input = true
        ↔ ∀ seg ∈ splitDot input,
            seg ≠ [] ∧ seg.head? ≠ some '-' ∧ seg.getLast? ≠ some '-' := by
  intro input
  rw [validate_vendor, List.all_eq_true]
  constructor
  · intro h seg hseg
    have hb := h seg hseg
    cases seg with
    | nil => simp at hb
    | cons a t =>
      simp only [Bool.and_eq_true, Bool.not_eq_true', decide_eq_false_iff_not] at hb
      exact ⟨by simp, hb.1.1, hb.1.2⟩
  · intro h seg hseg
    obtain ⟨h1, h2, h3⟩ := h seg hseg
    simp only [Bool.and_eq_true, Bool.not_eq_true', decide_eq_false_iff_not]
    refine ⟨⟨h2, h3⟩, ?_⟩
    cases seg with
    | nil => exact absurd rfl h1
    | cons a t => simp

/-- C3: for every input, the unescape transform is the single
left-to-right pass the claim describes: `\:` yields `;`, `\s` a space,
`\\` a backslash, `\r` CR, `\n` LF, a backslash before any other
character yields both unchanged, a non-backslash character is copied
unchanged, and a lone trailing backslash yields a backslash. -/
theorem C3_unescape_pass :
    ∀ value : List Char, unescaped_to_escaped value = unescapeSpec value := by
  intro value
  induction value using unescaped_to_escaped.induct <;>
    rw [unescaped_to_escaped.eq_def, unescapeSpec.eq_def] <;> simp_all [escPairs]

/-! ## One-step unfolding lemmas for the combinators -/

theorem recognizeP_ok {E α : Type} (p : List Char → Pres E α) (input r : List Char)
    (a : α) (h : p input = .ok (r, a)) :
    recognizeP p input = .ok (r, input.take (input.length - r.length)) := by
  unfold recognizeP
  rw [h]

theorem recognizeP_err {E α : Type} (p : List Char → Pres E α) (input : List Char)
    (e : E) (h : p input = .error e) : recognizeP p input = .error e := by
  unfold recognizeP
  rw [h]

/-! ## Helper lemmas: the alphanumeric/hyphen repeater consumes a whole
string of in-class characters -/

theorem alnumHyphenStep_ok {E : Type} (mk : List Char → NomCode → E) (c : Char)
    (t : List Char) (hc : c.isAlphanum = true ∨ c = '-') :
    ∃ rest m,
      altP (alphanumeric1P mk) (recognizeP (oneOfP mk tagsHYPHEN)) (c :: t) = .ok (rest, m)
      ∧ rest.length < (c :: t).length ∧ rest ⊆ c :: t := by
  rcases hc with h | h
  · refine ⟨(c :: t).drop (c :: t.takeWhile Char.isAlphanum).length,
      c :: t.takeWhile Char.isAlphanum, ?_, ?_, ?_⟩
    · simp [altP, alphanumeric1P, List.takeWhile_cons, h]
    · simp only [List.length_drop, List.length_cons]
      omega
    · exact List.drop_subset _ _
  · subst h
    have halnum : ('-').isAlphanum = false := by decide
    refine ⟨t, ['-'], ?_, by simp, fun a ha => List.mem_cons_of_mem _ ha⟩
    simp [altP, alphanumeric1P, List.takeWhile_cons, halnum, recognizeP, oneOfP,
      tagsHYPHEN]

theorem many0F_alnumHyphen_nil {E : Type} (mk : List Char → NomCode → E) :
    ∀ (fuel : Nat) (l : List Char),
      (∀ c ∈ l, c.isAlphanum = true ∨ c = '-') → l.length ≤ fuel →
      (many0F (altP (alphanumeric1P mk) (recognizeP (oneOfP mk tagsHYPHEN))) fuel l).1
        = [] := by
  intro fuel
  induction fuel with
  | zero =>
    intro l hall hlen
    have : l = [] := by cases l <;> simp_all
    subst this
    rw [many0F.eq_def]
    simp [altP, alphanumeric1P, recognizeP, oneOfP]
  | succ n ih =>
    intro l hall hlen
    cases l with
    | nil =>
      rw [many0F.eq_def]
      simp [altP, alphanumeric1P, recognizeP, oneOfP]
    | cons c t =>
      obtain ⟨rest, m, hstep, hlt, hsub⟩ :=
        alnumHyphenStep_ok mk c t (hall c (List.mem_cons_self c t))
      have hrest : ∀ a ∈ rest, a.isAlphanum = true ∨ a = '-' :=
        fun a ha => hall a (hsub ha)
      have hlen' : rest.length ≤ n := by
        simp only [List.length_cons] at hlt hlen
        omega
      rw [many0F.eq_def, hstep]
      simp only [if_pos hlt]
      exact ih rest hrest hlen'

/-- C10: for every non-empty string of ASCII letters, digits and hyphens
that starts with a letter and ends with a hyphen, the `key_name` parser
succeeds and consumes the whole string as the key name, while the strict
validator `validate_key_name` rejects the same string. -/
theorem C10_key_name_accepts_validator_rejects :
    ∀ l : List Char, l ≠ [] →
      (∀ c ∈ l, c.isAlphanum = true ∨ c = '-') →
      (∀ c, l.head? = some c → c.isAlpha = true) →
      l.getLast? = some '-' →
      key_name l = .ok ([], l) ∧ validate_key_name l = false := by
  intro l hne hall hhead hlast
  obtain ⟨c, t, rfl⟩ : ∃ c t, l = c :: t := by
    cases l with
    | nil => exact absurd rfl hne
    | cons c t => exact ⟨c, t, rfl⟩
  have hca : c.isAlpha = true := hhead c rfl
  have hcd : c ≠ '-' := by
    intro h
    rw [h] at hca
    exact absurd hca (by decide)
  constructor
  · obtain ⟨rest, m, hstep, hlt, hsub⟩ :=
      alnumHyphenStep_ok fromErrorKindTags c t (hall c (List.mem_cons_self c t))
    have hm0 := many0F_alnumHyphen_nil fromErrorKindTags rest.length rest
      (fun a ha => hall a (hsub ha)) (Nat.le_refl _)
    have hmany1 :
        many1P (altP (alphanumeric1P fromErrorKindTags)
            (recognizeP (oneOfP fromErrorKindTags tagsHYPHEN))) (c :: t)
          = .ok ([], m :: (many0F (altP (alphanumeric1P fromErrorKindTags)
              (recognizeP (oneOfP fromErrorKindTags tagsHYPHEN))) rest.length rest).2) := by
      unfold many1P
      rw [hstep]
      simp only [many0P, hm0]
    unfold key_name
    rw [if_neg (by simp)]
    rw [if_neg (by simp [check_starts_ascii_alph, hca, hcd])]
    rw [recognizeP_ok _ _ _ _ hmany1]
    simp
  · unfold validate_key_name
    rw [if_neg (by simp)]
    rw [if_pos (by simp [hlast])]

/-- C10 witness: the concrete string `"abc-"`. -/
theorem C10_witness :
    key_name "abc-".toList = .ok ([], "abc-".toList)
    ∧ validate_key_name "abc-".toList = false :=
  C10_key_name_accepts_validator_rejects "abc-".toList (by decide) (by decide)
    (by decide) (by decide)

/-- C9: a tag written `"k="` is stored with value `Some("")` and a bare
`"k"` with value `None`; `get("k")` returns `Some("")` in both cases; the
map-building exports substitute the empty string for an absent value; and
in general the stored value of a parsed tag is `Some` exactly when the
`=` separator followed the key. -/
theorem C9_empty_vs_absent_value :
    debug_parse "@k= x".toList = .ok ("x".toList, ⟨[("k".toList, some [])]⟩)
    ∧ debug_parse "@k x".toList = .ok ("x".toList, ⟨[("k".toList, none)]⟩)
    ∧ IRCv3Tags.get ⟨[("k".toList, some [])]⟩ "k".toList = some []
    ∧ IRCv3Tags.get ⟨[("k".toList, none)]⟩ "k".toList = some []
    ∧ IRCv3Tags.to_hashmap ⟨[("k".toList, none)]⟩ = [("k".toList, [])]
    ∧ IRCv3Tags.to_map ⟨[("k".toList, none)]⟩ = [("k".toList, [])]
    ∧ IRCv3Tags.to_hashmap_escaped ⟨[("k".toList, none)]⟩ = [("k".toList, [])]
    ∧ ∀ (input r k : List Char) (v : Option (List Char)),
        tag input = .ok (r, (k, v)) →
        ∃ r1, key input = .ok (r1, k) ∧ (v.isSome = true ↔ r1.head? = some '=') := by
  refine ⟨by decide, by decide, by decide, by decide, by decide, by decide, by decide, ?_⟩
  intro input r k v htag
  unfold tag at htag
  cases hk : key input with
  | error e =>
    rw [hk] at htag
    exact absurd htag (by simp)
  | ok p =>
    obtain ⟨r1, k'⟩ := p
    rw [hk] at htag
    simp only [Except.ok.injEq, Prod.mk.injEq] at htag
    obtain ⟨hr, hkk, hv⟩ := htag
    refine ⟨r1, by rw [← hkk]; try exact hk, ?_⟩
    rw [← hv]
    cases r1 with
    | nil => simp [optP, precededP, charP]
    | cons x xs =>
      by_cases hx : x = '='
      · subst hx
        simp [optP, precededP, charP, escaped_value, takeTillP]
      · simp [optP, precededP, charP, hx]

/-- C9 witness: the general separator/`Some` equivalence applied to the
concrete tag text `"k=v"`. -/
theorem C9_witness :
    ∃ r1, key "k=v".toList = .ok (r1, "k".toList)
      ∧ ((some "v".toList).isSome = true ↔ r1.head? = some '=') :=
  C9_empty_vs_absent_value.2.2.2.2.2.2.2 "k=v".toList [] "k".toList
    (some "v".toList) (by decide)

/-! ## Error-shape lemmas for the host grammar -/

theorem alpha1P_err_shape {E : Type} (mk : List Char → NomCode → E)
    (input : List Char) (e : E) (h : alpha1P mk input = .error e) :
    e = mk input .alpha := by
  unfold alpha1P at h
  split at h <;> simp_all

/-- A `label` failure is an empty-input, start-character or generic nom
error — never an invalid-construct (hyphen) error. -/
theorem label_error_kind (input : List Char) (e : HostError)
    (h : label input = .error e) :
    e.error = .empty ∨ e.error = .hostErrorStartWithLetter ∨ e.error = .nomError := by
  unfold label at h
  split at h
  · simp only [Except.error.injEq] at h
    subst h
    left
    rfl
  · split at h
    · simp only [Except.error.injEq] at h
      subst h
      right
      left
      rfl
    · right
      right
      unfold recognizeP at h
      simp only at h
      cases ha : alpha1P fromErrorKindHost input with
      | error ea =>
        rw [ha] at h
        simp only [Except.error.injEq] at h
        subst h
        rw [alpha1P_err_shape fromErrorKindHost input ea ha]
        rfl
      | ok p =>
        obtain ⟨r1, u⟩ := p
        rw [ha] at h
        simp at h

/-- When `invalid_label_hyphens` rejects a label, the error's input slice
is that label itself, so running the check on the slice regenerates the
very same error. -/
theorem invalid_label_hyphens_regen (l : List Char) (e : HostError)
    (h : invalid_label_hyphens l = .error e) :
    invalid_label_hyphens e.input = .error e := by
  unfold invalid_label_hyphens at h
  split at h
  · simp only [Except.error.injEq] at h
    subst h
    unfold invalid_label_hyphens invalid_ends_with
    simp_all
  · split at h
    · simp only [Except.error.injEq] at h
      subst h
      unfold invalid_label_hyphens invalid_consecutive_hiphens
      simp_all
    · simp at h

theorem debugHostLoopF_error_regen :
    ∀ (fuel : Nat) (current : List Char) (pos : Nat) (e : HostError),
      debugHostLoopF fuel current pos = .error e →
      (e.error = .hostErrorEndsWithLetterOrDigit
        ∨ e.error = .hostErrorNoConsecutiveHyphens) →
      invalid_label_hyphens e.input = .error e := by
  intro fuel
  induction fuel with
  | zero =>
    intro current pos e h hk
    rw [debugHostLoopF.eq_def] at h
    split at h
    · simp at h
    · split at h
      next e' heq =>
        simp only [Except.error.injEq] at h
        subst h
        rcases label_error_kind _ _ heq with h1 | h1 | h1 <;>
          rcases hk with h2 | h2 <;> simp_all
      next r2b l2 heq =>
        split at h
        next e' heq2 =>
          simp only [Except.error.injEq] at h
          subst h
          exact invalid_label_hyphens_regen _ _ heq2
        next u heq2 => simp at h
  | succ n ih =>
    intro current pos e h hk
    rw [debugHostLoopF.eq_def] at h
    split at h
    · simp at h
    · split at h
      next e' heq =>
        simp only [Except.error.injEq] at h
        subst h
        rcases label_error_kind _ _ heq with h1 | h1 | h1 <;>
          rcases hk with h2 | h2 <;> simp_all
      next r2b l2 heq =>
        split at h
        next e' heq2 =>
          simp only [Except.error.injEq] at h
          subst h
          exact invalid_label_hyphens_regen _ _ heq2
        next u heq2 => exact ih _ _ _ h hk

/-- C6 (amended): whenever `debug_host` fails with an invalid-construct
error (trailing hyphen or consecutive hyphens), the error's failing input
slice is the offending label's own text — a slice on which
`invalid_label_hyphens` regenerates the identical error — not the
original outer input. -/
theorem C6_amended_error_slice_is_label :
    ∀ (input : List Char) (e : HostError),
      debug_host input = .error e →
      (e.error = .hostErrorEndsWithLetterOrDigit
        ∨ e.error = .hostErrorNoConsecutiveHyphens) →
      invalid_label_hyphens e.input = .error e := by
  intro input e h hk
  unfold debug_host at h
  split at h
  next e' heq =>
    simp only [Except.error.injEq] at h
    subst h
    rcases label_error_kind _ _ heq with h1 | h1 | h1 <;>
      rcases hk with h2 | h2 <;> simp_all
  next remain label_str heq =>
    split at h
    next e' heq2 =>
      simp only [Except.error.injEq] at h
      subst h
      exact invalid_label_hyphens_regen _ _ heq2
    next u heq2 =>
      split at h
      · split at h
        next e' heq3 =>
          simp only [Except.error.injEq] at h
          subst h
          exact debugHostLoopF_error_regen _ _ _ _ heq3 hk
        next p heq3 => simp at h
      · simp at h

/-- C6 witness: the amended theorem applied at the concrete input
`"a.b-"`, whose invalid-construct error carries the inner label `"b-"`. -/
theorem C6_witness :
    invalid_label_hyphens "b-".toList
      = .error ⟨"b-".toList, .char, .hostErrorEndsWithLetterOrDigit,
          "end with an ascii alphabet or ascii digit"⟩ :=
  C6_amended_error_slice_is_label "a.b-".toList
    ⟨"b-".toList, .char, .hostErrorEndsWithLetterOrDigit,
      "end with an ascii alphabet or ascii digit"⟩
    (by decide) (by decide)

/-! ## Remainder-is-a-suffix lemmas

Every parser in the embedding consumes a prefix of its input: the
remainder it returns is a suffix.  These lemmas feed the delimiter
decomposition of the top-level parse. -/

theorem suffix_trans {a b c : List Char}
    (h1 : ∃ p, p ++ b = a) (h2 : ∃ q, q ++ c = b) : ∃ r, r ++ c = a := by
  obtain ⟨p, rfl⟩ := h1
  obtain ⟨q, rfl⟩ := h2
  exact ⟨p ++ q, by rw [List.append_assoc]⟩

theorem drop_suffix_exists (n : Nat) (input : List Char) :
    ∃ pre, pre ++ input.drop n = input :=
  ⟨input.take n, List.take_append_drop n input⟩

theorem charP_ok_shape {E : Type} {mk : List Char → NomCode → E} {c : Char}
    {input r : List Char} {a : Char} (h : charP mk c input = .ok (r, a)) :
    input = c :: r ∧ a = c := by
  cases input with
  | nil => simp [charP] at h
  | cons x rest =>
    simp only [charP] at h
    split at h
    next hx =>
      simp only [Except.ok.injEq, Prod.mk.injEq] at h
      obtain ⟨h1, h2⟩ := h
      exact ⟨by rw [hx, h1], by rw [← h2, hx]⟩
    next hx => simp at h

theorem oneOfP_ok_suffix {E : Type} {mk : List Char → NomCode → E} {cs : List Char}
    {input r : List Char} {a : Char} (h : oneOfP mk cs input = .ok (r, a)) :
    ∃ pre, pre ++ r = input := by
  cases input with
  | nil => simp [oneOfP] at h
  | cons x rest =>
    simp only [oneOfP] at h
    split at h
    next hx =>
      simp only [Except.ok.injEq, Prod.mk.injEq] at h
      exact ⟨[x], by simp [h.1]⟩
    next hx => simp at h

theorem alpha1P_ok_suffix {E : Type} {mk : List Char → NomCode → E}
    {input r m : List Char} (h : alpha1P mk input = .ok (r, m)) :
    ∃ pre, pre ++ r = input := by
  unfold alpha1P at h
  split at h
  · simp at h
  · simp only [Except.ok.injEq, Prod.mk.injEq] at h
    exact h.1 ▸ drop_suffix_exists _ _

theorem alphanumeric1P_ok_suffix {E : Type} {mk : List Char → NomCode → E}
    {input r m : List Char} (h : alphanumeric1P mk input = .ok (r, m)) :
    ∃ pre, pre ++ r = input := by
  unfold alphanumeric1P at h
  split at h
  · simp at h
  · simp only [Except.ok.injEq, Prod.mk.injEq] at h
    exact h.1 ▸ drop_suffix_exists _ _

theorem takeTillP_ok_suffix {E : Type} {p : Char → Bool}
    {input r m : List Char} (h : takeTillP (E := E) p input = .ok (r, m)) :
    ∃ pre, pre ++ r = input := by
  unfold takeTillP at h
  simp only [Except.ok.injEq, Prod.mk.injEq] at h
  exact h.1 ▸ drop_suffix_exists _ _

theorem recognizeP_ok_suffix {E α : Type} {p : List Char → Pres E α}
    (hp : ∀ input r a, p input = .ok (r, a) → ∃ pre, pre ++ r = input)
    {input r m : List Char} (h : recognizeP p input = .ok (r, m)) :
    ∃ pre, pre ++ r = input := by
  unfold recognizeP at h
  split at h
  · simp at h
  next rr aa heq =>
    simp only [Except.ok.injEq, Prod.mk.injEq] at h
    exact h.1 ▸ hp _ _ _ heq

theorem altP_ok_suffix {E α : Type} {p q : List Char → Pres E α}
    (hp : ∀ input r a, p input = .ok (r, a) → ∃ pre, pre ++ r = input)
    (hq : ∀ input r a, q input = .ok (r, a) → ∃ pre, pre ++ r = input)
    {input r : List Char} {a : α} (h : altP p q input = .ok (r, a)) :
    ∃ pre, pre ++ r = input := by
  unfold altP at h
  split at h
  next v heq =>
    simp only [Except.ok.injEq] at h
    subst h
    exact hp _ _ _ heq
  next heq => exact hq _ _ _ h

theorem optP_fst_suffix {E α : Type} {p : List Char → Pres E α}
    (hp : ∀ input r a, p input = .ok (r, a) → ∃ pre, pre ++ r = input)
    (input : List Char) : ∃ pre, pre ++ (optP p input).1 = input := by
  unfold optP
  split
  next r a heq => exact hp _ _ _ heq
  next => exact ⟨[], rfl⟩

theorem terminatedP_ok_suffix {E α β : Type}
    {p : List Char → Pres E α} {q : List Char → Pres E β}
    (hp : ∀ input r a, p input = .ok (r, a) → ∃ pre, pre ++ r = input)
    (hq : ∀ input r b, q input = .ok (r, b) → ∃ pre, pre ++ r = input)
    {input r : List Char} {a : α} (h : terminatedP p q input = .ok (r, a)) :
    ∃ pre, pre ++ r = input := by
  unfold terminatedP at h
  split at h
  · simp at h
  next r1 a1 heq =>
    split at h
    · simp at h
    next r2 b2 heq2 =>
      simp only [Except.ok.injEq, Prod.mk.injEq] at h
      obtain ⟨h1, _⟩ := h
      subst h1
      exact suffix_trans (hp _ _ _ heq) (hq _ _ _ heq2)

theorem precededP_ok_suffix {E α β : Type}
    {p : List Char → Pres E α} {q : List Char → Pres E β}
    (hp : ∀ input r a, p input = .ok (r, a) → ∃ pre, pre ++ r = input)
    (hq : ∀ input r b, q input = .ok (r, b) → ∃ pre, pre ++ r = input)
    {input r : List Char} {b : β} (h : precededP p q input = .ok (r, b)) :
    ∃ pre, pre ++ r = input := by
  unfold precededP at h
  split at h
  · simp at h
  next r1 a1 heq => exact suffix_trans (hp _ _ _ heq) (hq _ _ _ h)

theorem many0F_fst_suffix {E α : Type} {p : List Char → Pres E α}
    (hp : ∀ input r a, p input = .ok (r, a) → ∃ pre, pre ++ r = input) :
    ∀ (fuel : Nat) (input : List Char),
      ∃ pre, pre ++ (many0F p fuel input).1 = input := by
  intro fuel
  induction fuel with
  | zero =>
    intro input
    rw [many0F.eq_def]
    split
    · exact ⟨[], rfl⟩
    · exact ⟨[], rfl⟩
  | succ n ih =>
    intro input
    rw [many0F.eq_def]
    split
    · exact ⟨[], rfl⟩
    next rest a heq =>
      show ∃ pre, pre ++ (if rest.length < input.length then
          ((many0F p n rest).1, a :: (many0F p n rest).2) else (input, [])).1 = input
      by_cases hlt : rest.length < input.length
      · rw [if_pos hlt]
        exact suffix_trans (hp _ _ _ heq) (ih rest)
      · rw [if_neg hlt]
        exact ⟨[], rfl⟩

theorem many1P_ok_suffix {E α : Type} {p : List Char → Pres E α}
    (hp : ∀ input r a, p input = .ok (r, a) → ∃ pre, pre ++ r = input)
    {input r : List Char} {l : List α} (h : many1P p input = .ok (r, l)) :
    ∃ pre, pre ++ r = input := by
  unfold many1P at h
  split at h
  · simp at h
  next rest a heq =>
    simp only [Except.ok.injEq, Prod.mk.injEq] at h
    obtain ⟨h1, _⟩ := h
    subst h1
    exact suffix_trans (hp _ _ _ heq) (many0F_fst_suffix hp _ _)

theorem sepLoopF_ok_suffix {E α β : Type} {mk : List Char → NomCode → E}
    {sep : List Char → Pres E β} {p : List Char → Pres E α}
    (hsep : ∀ input r b, sep input = .ok (r, b) → ∃ pre, pre ++ r = input)
    (hp : ∀ input r a, p input = .ok (r, a) → ∃ pre, pre ++ r = input) :
    ∀ (fuel : Nat) (i r : List Char) (l : List α),
      sepLoopF mk sep p fuel i = .ok (r, l) → ∃ pre, pre ++ r = i := by
  intro fuel
  induction fuel with
  | zero =>
    intro i r l h
    rw [sepLoopF.eq_def] at h
    split at h
    · simp only [Except.ok.injEq, Prod.mk.injEq] at h
      exact ⟨[], by simp [h.1]⟩
    · split at h
      · simp at h
      · split at h
        · simp only [Except.ok.injEq, Prod.mk.injEq] at h
          exact ⟨[], by simp [h.1]⟩
        · simp only [Except.ok.injEq, Prod.mk.injEq] at h
          exact ⟨[], by simp [h.1]⟩

  | succ n ih =>
    intro i r l h
    rw [sepLoopF.eq_def] at h
    split at h
    · simp only [Except.ok.injEq, Prod.mk.injEq] at h
      exact ⟨[], by simp [h.1]⟩
    next i1 b heq =>
      split at h
      · simp at h
      · split at h
        · simp only [Except.ok.injEq, Prod.mk.injEq] at h
          exact ⟨[], by simp [h.1]⟩
        next i2 a heq2 =>
          split at h
          next hfe =>
            simp only [Except.ok.injEq, Prod.mk.injEq] at h
            exact ⟨[], by simp [h.1]⟩
          next fuel' hfe =>
            have hf : fuel' = n := by omega
            subst hf
            split at h
            · simp at h
            next r' rest heq3 =>
              simp only [Except.ok.injEq, Prod.mk.injEq] at h
              obtain ⟨h1, _⟩ := h
              subst h1
              exact suffix_trans (hsep _ _ _ heq)
                (suffix_trans (hp _ _ _ heq2) (ih _ _ _ heq3))

theorem sepList1P_ok_suffix {E α β : Type} {mk : List Char → NomCode → E}
    {sep : List Char → Pres E β} {p : List Char → Pres E α}
    (hsep : ∀ input r b, sep input = .ok (r, b) → ∃ pre, pre ++ r = input)
    (hp : ∀ input r a, p input = .ok (r, a) → ∃ pre, pre ++ r = input)
    {input r : List Char} {l : List α} (h : sepList1P mk sep p input = .ok (r, l)) :
    ∃ pre, pre ++ r = input := by
  unfold sepList1P at h
  split at h
  · simp at h
  next i1 a heq =>
    split at h
    · simp at h
    next r' rest heq2 =>
      simp only [Except.ok.injEq, Prod.mk.injEq] at h
      obtain ⟨h1, _⟩ := h
      subst h1
      exact suffix_trans (hp _ _ _ heq) (sepLoopF_ok_suffix hsep hp _ _ _ _ heq2)

theorem charP_ok_suffix {E : Type} (mk : List Char → NomCode → E) (c : Char) :
    ∀ (input r : List Char) (a : Char),
      charP mk c input = .ok (r, a) → ∃ pre, pre ++ r = input := by
  intro input r a h
  exact ⟨[c], ((charP_ok_shape h).1).symm⟩

theorem label_ok_suffix {input r m : List Char} (h : label input = .ok (r, m)) :
    ∃ pre, pre ++ r = input := by
  unfold label at h
  split at h
  · simp at h
  · split at h
    · simp at h
    · refine recognizeP_ok_suffix ?_ h
      intro i rr aa hh
      simp only at hh
      cases ha : alpha1P fromErrorKindHost i with
      | error ea =>
        rw [ha] at hh
        simp at hh
      | ok p =>
        obtain ⟨r1, u⟩ := p
        rw [ha] at hh
        simp only [Except.ok.injEq, Prod.mk.injEq] at hh
        obtain ⟨h1, _⟩ := hh
        subst h1
        exact suffix_trans (alpha1P_ok_suffix ha)
          (many0F_fst_suffix (fun j rj aj hj =>
            altP_ok_suffix (fun i2 r2 a2 h2 => alphanumeric1P_ok_suffix h2)
              (fun i2 r2 a2 h2 => recognizeP_ok_suffix
                (fun i3 r3 a3 h3 => oneOfP_ok_suffix h3) h2) hj) _ _)

theorem debugHostLoopF_ok_suffix :
    ∀ (fuel : Nat) (current : List Char) (pos : Nat) (r : List Char) (n : Nat),
      debugHostLoopF fuel current pos = .ok (r, n) → ∃ pre, pre ++ r = current := by
  intro fuel
  induction fuel with
  | zero =>
    intro current pos r n h
    rw [debugHostLoopF.eq_def] at h
    split at h
    · simp only [Except.ok.injEq, Prod.mk.injEq] at h
      exact ⟨[], by simp [h.1]⟩
    · split at h
      · simp at h
      · split at h
        · simp at h
        · simp only [Except.ok.injEq, Prod.mk.injEq] at h
          exact ⟨[], by simp [h.1]⟩
  | succ m ih =>
    intro current pos r n h
    rw [debugHostLoopF.eq_def] at h
    split at h
    · simp only [Except.ok.injEq, Prod.mk.injEq] at h
      exact ⟨[], by simp [h.1]⟩
    next r2 ch heq =>
      split at h
      · simp at h
      next r2b l2 heq2 =>
        split at h
        · simp at h
        next u heq3 =>
          have hdot : current = '.' :: r2 := (charP_ok_shape heq).1
          exact suffix_trans (⟨['.'], hdot.symm⟩)
            (suffix_trans (label_ok_suffix heq2) (ih _ _ _ _ h))

theorem debug_host_ok_suffix {input r m : List Char}
    (h : debug_host input = .ok (r, m)) : ∃ pre, pre ++ r = input := by
  unfold debug_host at h
  split at h
  · simp at h
  next remain label_str heq =>
    split at h
    · simp at h
    next u heq2 =>
      split at h
      · split at h
        · simp at h
        next current pos heq3 =>
          simp only [Except.ok.injEq, Prod.mk.injEq] at h
          obtain ⟨h1, _⟩ := h
          subst h1
          exact suffix_trans (label_ok_suffix heq) (debugHostLoopF_ok_suffix _ _ _ _ _ heq3)
      · simp only [Except.ok.injEq, Prod.mk.injEq] at h
        obtain ⟨h1, _⟩ := h
        subst h1
        exact label_ok_suffix heq

theorem vendor_ok_suffix :
    ∀ (input r : List Char) (m : List Char),
      vendor input = .ok (r, m) → ∃ pre, pre ++ r = input := by
  intro input r m h
  unfold vendor at h
  split at h
  next v heq =>
    simp only [Except.ok.injEq] at h
    subst h
    exact debug_host_ok_suffix heq
  next e heq => simp at h

theorem key_name_ok_suffix :
    ∀ (input r m : List Char),
      key_name input = .ok (r, m) → ∃ pre, pre ++ r = input := by
  intro input r m h
  unfold key_name at h
  split at h
  · simp at h
  · split at h
    · simp at h
    · exact recognizeP_ok_suffix (fun i rr ll hh =>
        many1P_ok_suffix (fun j rj aj hj =>
          altP_ok_suffix (fun i2 r2 a2 h2 => alphanumeric1P_ok_suffix h2)
            (fun i2 r2 a2 h2 => recognizeP_ok_suffix
              (fun i3 r3 a3 h3 => oneOfP_ok_suffix h3) h2) hj) hh) h

theorem key_ok_suffix :
    ∀ (input r m : List Char),
      key input = .ok (r, m) → ∃ pre, pre ++ r = input := by
  intro input r m h
  unfold key at h
  split at h
  next v heq =>
    simp only [Except.ok.injEq] at h
    subst h
    refine recognizeP_ok_suffix ?_ heq
    intro i rr uu hh
    simp only at hh
    split at hh
    · simp at hh
    next rk m2 hkn =>
      simp only [Except.ok.injEq, Prod.mk.injEq] at hh
      obtain ⟨h1, _⟩ := hh
      subst h1
      refine suffix_trans (optP_fst_suffix (charP_ok_suffix fromErrorKindTags '+') i) ?_
      refine suffix_trans (optP_fst_suffix (fun i2 r2 a2 h2 =>
        terminatedP_ok_suffix vendor_ok_suffix
          (charP_ok_suffix fromErrorKindTags '/') h2) _) ?_
      exact key_name_ok_suffix _ _ _ hkn
  next e heq => simp at h

theorem tag_ok_suffix :
    ∀ (input r : List Char) (kv : List Char × Option (List Char)),
      tag input = .ok (r, kv) → ∃ pre, pre ++ r = input := by
  intro input r kv h
  unfold tag at h
  split at h
  · simp at h
  next r1 k heq =>
    simp only [Except.ok.injEq, Prod.mk.injEq] at h
    obtain ⟨h1, _⟩ := h
    subst h1
    refine suffix_trans (key_ok_suffix _ _ _ heq) ?_
    exact optP_fst_suffix (fun i2 r2 a2 h2 =>
      precededP_ok_suffix (charP_ok_suffix fromErrorKindTags '=')
        (fun i3 r3 a3 h3 => takeTillP_ok_suffix h3) h2) r1

theorem tags_ok_suffix :
    ∀ (input r : List Char) (l : List (List Char × Option (List Char))),
      tags input = .ok (r, l) → ∃ pre, pre ++ r = input := by
  intro input r l h
  exact sepList1P_ok_suffix (charP_ok_suffix fromErrorKindTags ';') tag_ok_suffix h

/-- C2 witness: the projection relation at the concrete inputs `"@k=v x"`
(tag parse) and `"a.b-"` (host parse, a failing one). -/
theorem C2_witness :
    try_parse "@k=v x".toList = lossy_tags_projection (debug_parse "@k=v x".toList)
    ∧ host "a.b-".toList = lossy_host_projection (debug_host "a.b-".toList) :=
  ⟨(C2_tolerant_is_lossy_projection "@k=v x".toList).1,
    (C2_tolerant_is_lossy_projection "a.b-".toList).2⟩

/-- C3 witness: the unescape pass at the concrete input `a\:b\x`. -/
theorem C3_witness :
    unescaped_to_escaped "a\\:b\\x".toList = unescapeSpec "a\\:b\\x".toList :=
  C3_unescape_pass "a\\:b\\x".toList

/-- C8 witness: the amended characterisation at the concrete input
`"ho--st.x"`. -/
theorem C8_witness :
    validate_vendor "ho--st.x".toList = true
      ↔ ∀ seg ∈ splitDot "ho--st.x".toList,
          seg ≠ [] ∧ seg.head? ≠ some '-' ∧ seg.getLast? ≠ some '-' :=
  C8_amended_validate_vendor_iff "ho--st.x".toList

/-! ## takeWhile decomposition helpers for the space-run delimiter -/

theorem takeWhile_append_drop (p : Char → Bool) (l : List Char) :
    l.takeWhile p ++ l.drop (l.takeWhile p).length = l := by
  induction l with
  | nil => rfl
  | cons c t ih => by_cases hc : p c <;> simp [List.takeWhile_cons, hc, ih]

theorem mem_takeWhile_sat (p : Char → Bool) (l : List Char) :
    ∀ c ∈ l.takeWhile p, p c = true := by
  induction l with
  | nil => simp
  | cons a t ih =>
    intro c hc
    by_cases ha : p a
    · rw [List.takeWhile_cons, if_pos ha] at hc
      rcases List.mem_cons.mp hc with rfl | hm
      · exact ha
      · exact ih c hm
    · rw [List.takeWhile_cons, if_neg ha] at hc
      simp at hc

theorem head_drop_takeWhile (p : Char → Bool) (l : List Char) :
    ∀ c, (l.drop (l.takeWhile p).length).head? = some c → p c = false := by
  induction l with
  | nil =>
    intro c hc
    simp at hc
  | cons a t ih =>
    intro c hc
    by_cases ha : p a
    · rw [List.takeWhile_cons, if_pos ha] at hc
      simp only [List.length_cons, List.drop_succ_cons] at hc
      exact ih c hc
    · rw [List.takeWhile_cons, if_neg ha] at hc
      simp only [List.length_nil, List.drop_zero, List.head?_cons, Option.some.injEq] at hc
      subst hc
      simpa using ha

/-- C5 (amended): the top-level parse delimits the tag list with a run of
one or more space/tab characters, consumed maximally by `space1`: the
remainder is exactly the text after the whole run (so `"@k=v "` yields
remainder `""` with `get("k") = Some("v")`, and with two trailing spaces
the remainder starts after the second). -/
theorem C5_amended_space_run :
    (∃ t : IRCv3Tags, debug_parse "@k=v ".toList = .ok ([], t)
        ∧ t.get "k".toList = some "v".toList)
    ∧ ∀ (input remain : List Char) (t : IRCv3Tags),
        debug_parse input = .ok (remain, t) →
        ∃ body sp, input = '@' :: (body ++ (sp ++ remain))
          ∧ sp ≠ []
          ∧ (∀ c ∈ sp, isSpaceTab c = true)
          ∧ (∀ c, remain.head? = some c → isSpaceTab c = false) := by
  constructor
  · exact ⟨⟨[("k".toList, some "v".toList)]⟩, by decide, by decide⟩
  · intro input remain t h
    unfold debug_parse at h
    split at h
    · simp at h
    · split at h
      · simp at h
      next remain' tgs heq =>
        simp only [Except.ok.injEq, Prod.mk.injEq] at h
        obtain ⟨h1, _⟩ := h
        subst h1
        unfold delimitedP at heq
        split at heq
        · simp at heq
        next i1 ach hat =>
          split at heq
          · simp at heq
          next r2 tl htags =>
            split at heq
            · simp at heq
            next r3 spv hsp =>
              simp only [Except.ok.injEq, Prod.mk.injEq] at heq
              obtain ⟨hr3, _⟩ := heq
              have hinput : input = '@' :: i1 := (charP_ok_shape hat).1
              obtain ⟨body, hbody⟩ := tags_ok_suffix _ _ _ htags
              unfold space1P at hsp
              split at hsp
              next hg => simp at hsp
              next hg =>
                simp only [Except.ok.injEq, Prod.mk.injEq] at hsp
                obtain ⟨hdrop, _⟩ := hsp
                refine ⟨body, r2.takeWhile isSpaceTab, ?_, ?_,
                  mem_takeWhile_sat _ _, ?_⟩
                · rw [hinput, ← hbody, ← hr3, ← hdrop, takeWhile_append_drop]
                · intro hnil
                  rw [hnil] at hg
                  simp at hg
                · intro c hc
                  rw [← hr3, ← hdrop] at hc
                  exact head_drop_takeWhile isSpaceTab r2 c hc

/-- C5 witness: the amended delimiter-run decomposition applied at the
concrete input `"@k=v  x"` (two spaces before the remainder `"x"`). -/
theorem C5_witness :
    ∃ body sp, "@k=v  x".toList = '@' :: (body ++ (sp ++ "x".toList))
      ∧ sp ≠ []
      ∧ (∀ c ∈ sp, isSpaceTab c = true)
      ∧ (∀ c, "x".toList.head? = some c → isSpaceTab c = false) :=
  C5_amended_space_run.2 "@k=v  x".toList "x".toList
    ⟨[("k".toList, some "v".toList)]⟩ (by decide)

end IRCv3
